import Mathlib

/-!
# Verification of the claude-logging pipeline and CLI layer

Shallow embedding of the `claude-logging` repository.  The CLI layer
(`src/claude_logging/__main__.py`: `process_single_file`, `dump_command`,
`get_default_output_path`, `claude_command`) is translated from the source.
The two pipeline stages (`pytermdump.termdump` and `ansi2html.generate_html`)
are imported by `__main__.py` but their source files are not part of the
source tree under verification; they are modelled from the specification
(marked `Modelled from the spec:` below).

Bytes and Unicode code points are represented as `Nat`; texts are
`List Nat` of code points; a raw transcript is a `List Nat` of bytes.
-/

namespace ClaudeLogging

/-- Code points of a string literal, as a list of naturals. -/
def cp (s : String) : List Nat := s.toList.map Char.toNat

/-! ## Style attributes (spec §3, Data model) -/

/-- Modelled from the spec: a colour is default, a 16-colour index,
a 256-colour index, or a 24-bit RGB triple. -/
inductive Color where
  | default : Color
  | std : Nat → Color
  | c256 : Nat → Color
  | rgb : Nat → Nat → Nat → Color
deriving DecidableEq, Repr

/-- Modelled from the spec: style attributes: bold, italic, underline
flags, foreground colour, background colour. -/
structure Attrs where
  bold : Bool
  italic : Bool
  underline : Bool
  fg : Color
  bg : Color
deriving DecidableEq, Repr

def Attrs.default : Attrs := ⟨false, false, false, .default, .default⟩

/-- Modelled from the spec: SGR parameter application (spec §4.1): `0`
resets, `1` bold, `4` underline, `22` unsets bold, `30–37`/`90–97` 16-colour
foreground, `39` default foreground, `40–47`/`100–107` background, `49`
default background, `38;5;n`/`48;5;n` 256-colour, `38;2;r;g;b`/`48;2;r;g;b`
true colour; unsupported parameters are ignored. -/
def applySgr : Attrs → List Nat → Attrs
  | a, [] => a
  | _, 0 :: rest => applySgr Attrs.default rest
  | a, 1 :: rest => applySgr { a with bold := true } rest
  | a, 4 :: rest => applySgr { a with underline := true } rest
  | a, 22 :: rest => applySgr { a with bold := false } rest
  | a, 38 :: 5 :: n :: rest => applySgr { a with fg := .c256 n } rest
  | a, 38 :: 2 :: r :: g :: b :: rest => applySgr { a with fg := .rgb r g b } rest
  | a, 48 :: 5 :: n :: rest => applySgr { a with bg := .c256 n } rest
  | a, 48 :: 2 :: r :: g :: b :: rest => applySgr { a with bg := .rgb r g b } rest
  | a, 39 :: rest => applySgr { a with fg := .default } rest
  | a, 49 :: rest => applySgr { a with bg := .default } rest
  | a, p :: rest =>
    if 30 ≤ p ∧ p ≤ 37 then applySgr { a with fg := .std (p - 30) } rest
    else if 90 ≤ p ∧ p ≤ 97 then applySgr { a with fg := .std (p - 90 + 8) } rest
    else if 40 ≤ p ∧ p ≤ 47 then applySgr { a with bg := .std (p - 40) } rest
    else if 100 ≤ p ∧ p ≤ 107 then applySgr { a with bg := .std (p - 100 + 8) } rest
    else applySgr a rest

/-! ## Normalizer: terminal state machine (spec §4.1)

Modelled from the spec: `pytermdump.termdump` is absent from the source
tree; the state machine below follows spec §4.1 (states `Ground`, `Escape`,
`ControlSequence`, `OperatingSystemCommand`; byte classification; recognized
control-sequence commands; end-of-input flush).  Per spec §9 the window
geometry is an unspecified configurable parameter; the model uses an
unbounded window (rows materialize as the cursor reaches them, no wrap),
so no row scrolls away before the end-of-input flush. -/

/-- A screen cell: one written byte plus the style active when written. -/
structure Cell where
  b : Nat
  a : Attrs
deriving DecidableEq, Repr

def blankCell : Cell := ⟨32, Attrs.default⟩

/-- Parsing states of the normalizer (spec §4.1). -/
inductive PState where
  | ground : PState
  | escape : PState
  | csi : List Nat → Option Nat → PState
  | osc : PState
  | oscEsc : PState
deriving DecidableEq, Repr

/-- Terminal state: screen rows, cursor position, current style,
parsing state. -/
structure Term where
  rows : List (List Cell)
  row : Nat
  col : Nat
  style : Attrs
  ps : PState
deriving DecidableEq, Repr

def initTerm : Term := ⟨[[]], 0, 0, Attrs.default, .ground⟩

/-- Ensure the row list has at least `n+1` rows (rows materialize as the
cursor reaches them). -/
def padRows (rows : List (List Cell)) (n : Nat) : List (List Cell) :=
  rows ++ List.replicate (n + 1 - rows.length) []

/-- Overwrite the cell at column `c`, padding with blank default cells if
the row is shorter (spec: addressing clamps/extends, never faults). -/
def setAt (r : List Cell) (c : Nat) (cell : Cell) : List Cell :=
  if c < r.length then r.set c cell
  else r ++ List.replicate (c - r.length) blankCell ++ [cell]

/-- Write one byte at the cursor with the current style and advance the
column (spec §4.1, printable byte in `Ground`). -/
def writeByte (t : Term) (b : Nat) : Term :=
  let rows := padRows t.rows t.row
  let r := rows.getD t.row []
  { t with rows := rows.set t.row (setAt r t.col ⟨b, t.style⟩), col := t.col + 1 }

/-- Line feed: advance the row by one, column unchanged (spec §4.1). -/
def lineFeed (t : Term) : Term :=
  { t with row := t.row + 1, rows := padRows t.rows (t.row + 1) }

/-- Erase-in-line semantics (spec §4.1 `K`): erasure overwrites cells with
blank + default style, it does not delete columns. -/
def eraseRow (r : List Cell) (mode col : Nat) : List Cell :=
  if mode = 0 then r.take col ++ List.replicate (r.length - col) blankCell
  else if mode = 1 then List.replicate (min (col + 1) r.length) blankCell ++ r.drop (col + 1)
  else if mode = 2 then List.replicate r.length blankCell
  else r

def blankAll (r : List Cell) : List Cell := List.replicate r.length blankCell

/-- Erase-in-display (spec §4.1 `J`): erase-in-line semantics applied to
rows. -/
def eraseDisplay (t : Term) (mode : Nat) : Term :=
  if mode = 0 then
    { t with rows := t.rows.take t.row ++ [eraseRow (t.rows.getD t.row []) 0 t.col]
                      ++ (t.rows.drop (t.row + 1)).map blankAll }
  else if mode = 1 then
    { t with rows := (t.rows.take t.row).map blankAll ++ [eraseRow (t.rows.getD t.row []) 1 t.col]
                      ++ t.rows.drop (t.row + 1) }
  else if mode = 2 then
    { t with rows := t.rows.map blankAll }
  else t

/-- Recognized control-sequence final bytes (spec §4.1):
`A B C D H f J K m`. -/
def isCsiFinal (b : Nat) : Bool :=
  b = 65 || b = 66 || b = 67 || b = 68 || b = 72 || b = 102 || b = 74 || b = 75 || b = 109

/-- Dispatch a recognized control-sequence command (spec §4.1): cursor
movement clamped to the window, absolute positioning, erasure, SGR. -/
def csiDispatch (t : Term) (cmd : Nat) (ps : List Nat) : Term :=
  let p0 := ps.headD 0
  let n := if p0 = 0 then 1 else p0
  if cmd = 65 then { t with row := t.row - n }
  else if cmd = 66 then { t with row := min (t.row + n) (t.rows.length - 1) }
  else if cmd = 67 then { t with col := t.col + n }
  else if cmd = 68 then { t with col := t.col - n }
  else if cmd = 72 ∨ cmd = 102 then
    let r := if ps.getD 0 0 = 0 then 1 else ps.getD 0 0
    let c := if ps.getD 1 0 = 0 then 1 else ps.getD 1 0
    { t with row := min (r - 1) (t.rows.length - 1), col := c - 1 }
  else if cmd = 75 then
    { t with rows := t.rows.set t.row (eraseRow (t.rows.getD t.row []) p0 t.col) }
  else if cmd = 74 then eraseDisplay t p0
  else if cmd = 109 then { t with style := applySgr t.style ps }
  else t

/-- Bare bytes in `Ground` (spec §4.1): `ESC` enters `Escape`, `\r` resets
the column, `\n` advances the row (column unchanged), backspace moves back
clamped at 0, bell and other control bytes are display no-ops, anything
else is written at the cursor. -/
def stepGround (t : Term) (b : Nat) : Term :=
  if b = 27 then { t with ps := .escape }
  else if b = 13 then { t with col := 0 }
  else if b = 10 then lineFeed t
  else if b = 8 then { t with col := t.col - 1 }
  else if b < 32 ∨ b = 127 then t
  else writeByte t b

/-- One byte of the normalizer state machine (spec §4.1). -/
def step (t : Term) (b : Nat) : Term :=
  match t.ps with
  | .ground => stepGround t b
  | .escape =>
    if b = 91 then { t with ps := .csi [] none }
    else if b = 93 then { t with ps := .osc }
    else { t with ps := .ground }
  | .csi ps cur =>
    if 48 ≤ b ∧ b ≤ 57 then { t with ps := .csi ps (some ((cur.getD 0) * 10 + (b - 48))) }
    else if b = 59 then { t with ps := .csi (ps ++ [cur.getD 0]) none }
    else if isCsiFinal b then csiDispatch { t with ps := .ground } b (ps ++ [cur.getD 0])
    else { t with ps := .ground }
  | .osc =>
    if b = 7 then { t with ps := .ground }
    else if b = 27 then { t with ps := .oscEsc }
    else t
  | .oscEsc =>
    if b = 92 then { t with ps := .ground }
    else if b = 27 then t
    else { t with ps := .osc }

/-- Run the state machine over a raw transcript; a partially collected
sequence at end of input is abandoned without error (spec §4.1/§7). -/
def runTerm (raw : List Nat) : Term := raw.foldl step initTerm

/-! ### Canonical output emission (spec §4.1, output encoding)

Modelled from the spec: each canonical line is plain text with styled runs
re-expressed by a compact inline marker scheme; the model re-emits SGR
markers (`ESC [ 0 ; codes m`) whenever the cell style changes, threading
the current style across rows. -/

/-- ASCII digit codes of a natural number, most significant first;
`fuel` bounds the number of digits. -/
def natCodesGo (fuel : Nat) (n : Nat) : List Nat :=
  match fuel with
  | 0 => []
  | f + 1 => if n < 10 then [48 + n] else natCodesGo f (n / 10) ++ [48 + n % 10]

/-- ASCII digit codes of a natural number, most significant first. -/
def natCodes (n : Nat) : List Nat := natCodesGo (n + 1) n

def colorCodes (isFg : Bool) : Color → List Nat
  | .default => []
  | .std i => if i < 8 then [(if isFg then 30 else 40) + i] else [(if isFg then 90 else 100) + (i - 8)]
  | .c256 n => [(if isFg then 38 else 48), 5, n]
  | .rgb r g b => [(if isFg then 38 else 48), 2, r, g, b]

/-- SGR parameter list describing a full attribute set from a reset. -/
def attrsCodes (a : Attrs) : List Nat :=
  0 :: ((if a.bold then [1] else []) ++ (if a.underline then [4] else [])
    ++ colorCodes true a.fg ++ colorCodes false a.bg)

/-- Marker bytes for switching to attribute set `a`. -/
def sgrBytesOf (a : Attrs) : List Nat :=
  [27, 91] ++ (List.intercalate [59] ((attrsCodes a).map natCodes)) ++ [109]

/-- Emit one row: a marker is emitted whenever the cell style differs from
the current style. -/
def emitRow (cur : Attrs) (r : List Cell) : List Nat × Attrs :=
  r.foldl (fun acc cell =>
    if cell.a = acc.2 then (acc.1 ++ [cell.b], acc.2)
    else (acc.1 ++ sgrBytesOf cell.a ++ [cell.b], cell.a)) ([], cur)

/-- Emit all rows top-to-bottom joined by line feeds, threading the current
style. -/
def emitRowsFrom (cur : Attrs) : List (List Cell) → List Nat
  | [] => []
  | r :: rs =>
    let e := emitRow cur r
    match rs with
    | [] => e.1
    | _ :: _ => e.1 ++ 10 :: emitRowsFrom e.2 rs

/-- Modelled from the spec: `pytermdump.termdump` (absent from the source
tree): `normalize(raw: bytes) -> canonical_text: bytes`.  At end of input
all window rows are flushed top-to-bottom (spec §4.1). -/
def termdump (raw : List Nat) : List Nat :=
  emitRowsFrom Attrs.default (runTerm raw).rows

/-! ## UTF-8 decoding with replacement

Model of Python's `bytes.decode('utf-8', errors='replace')` used at
`src/claude_logging/__main__.py:39`: every maximal invalid or incomplete
sequence is replaced by U+FFFD and decoding continues. -/

def replCp : Nat := 0xFFFD

/-- Incremental UTF-8 decoder state: `need` continuation bytes still
expected (`0` = between scalars), the admissible range `[lo, hi]` for the
next byte, the partial scalar value `acc`, the decoded output, and whether
any invalid sequence was seen (`bad`, used by the strict decoder). -/
structure U8 where
  need : Nat
  lo : Nat
  hi : Nat
  acc : Nat
  out : List Nat
  bad : Bool
deriving DecidableEq, Repr

def u8init : U8 := ⟨0, 0, 0, 0, [], false⟩

/-- Classify byte `b` as the start of a sequence (CPython's decoder: C0/C1
and F5+ leads, i.e. overlong or out-of-range encodings, are invalid; E0/ED
and F0/F4 leads restrict their second byte, rejecting overlong scalars,
surrogates and values beyond U+10FFFF). -/
def u8lead (s : U8) (b : Nat) : U8 :=
  if b < 0x80 then { s with out := s.out ++ [b] }
  else if b < 0xC2 then { s with out := s.out ++ [replCp], bad := true }
  else if b < 0xE0 then { s with need := 1, lo := 0x80, hi := 0xBF, acc := b - 0xC0 }
  else if b = 0xE0 then { s with need := 2, lo := 0xA0, hi := 0xBF, acc := 0 }
  else if b = 0xED then { s with need := 2, lo := 0x80, hi := 0x9F, acc := 0xD }
  else if b < 0xF0 then { s with need := 2, lo := 0x80, hi := 0xBF, acc := b - 0xE0 }
  else if b = 0xF0 then { s with need := 3, lo := 0x90, hi := 0xBF, acc := 0 }
  else if b = 0xF4 then { s with need := 3, lo := 0x80, hi := 0x8F, acc := 4 }
  else if b < 0xF5 then { s with need := 3, lo := 0x80, hi := 0xBF, acc := b - 0xF0 }
  else { s with out := s.out ++ [replCp], bad := true }

/-- One byte of UTF-8 decoding with replacement: an out-of-range
continuation byte substitutes U+FFFD for the maximal invalid subpart and
reprocesses the byte as a fresh lead, exactly as CPython does. -/
def u8step (s : U8) (b : Nat) : U8 :=
  if s.need = 0 then u8lead s b
  else if s.lo ≤ b ∧ b ≤ s.hi then
    let acc := s.acc * 64 + (b - 0x80)
    if s.need = 1 then { s with need := 0, acc := 0, out := s.out ++ [acc] }
    else { s with need := s.need - 1, lo := 0x80, hi := 0xBF, acc := acc }
  else u8lead { s with need := 0, out := s.out ++ [replCp], bad := true } b

/-- Model of Python `bytes.decode('utf-8', errors='replace')`
(`__main__.py:39`): total, substitutes U+FFFD for each maximal invalid or
truncated sequence and continues; a sequence truncated at end of input is
replaced at the final flush. -/
def decodeReplace (l : List Nat) : List Nat :=
  let s := l.foldl u8step u8init
  s.out ++ (if s.need = 0 then [] else [replCp])

/-- Strict UTF-8 decoding (Python `errors='strict'`): fails on any input
on which the replacing decoder substituted or flushed. -/
def decodeStrict (l : List Nat) : Option (List Nat) :=
  let s := l.foldl u8step u8init
  if s.bad || s.need != 0 then none else some s.out

/-! ## Renderer (spec §4.2)

Modelled from the spec: `ansi2html.generate_html` is absent from the source
tree.  The renderer splits the canonical text into lines, parses the inline
SGR markers of each line into styled runs (threading the style across
lines), HTML-escapes all text content, and emits one line record per
canonical line carrying a 1-based line number and a stable `L<n>` anchor,
wrapped in a document with the title `Terminal Output`.  Any sequence it
cannot interpret is kept as plain (escaped) text. -/

/-- Split a text into lines at line feeds (every split component,
including a trailing empty one). -/
def splitNl : List Nat → List (List Nat)
  | [] => [[]]
  | c :: cs =>
    if c = 10 then [] :: splitNl cs
    else
      match splitNl cs with
      | [] => [[c]]
      | l :: ls => (c :: l) :: ls

/-- Canonical lines of a text: like Python `str.splitlines` for
LF-separated text (a trailing line terminator does not open a final empty
line). -/
def linesOf (cs : List Nat) : List (List Nat) :=
  let ls := splitNl cs
  if ls.getLast? = some [] then ls.dropLast else ls

/-- Run-parsing modes of the renderer's marker scanner. -/
inductive RMode where
  | text : RMode
  | esc : RMode
  | csi : List Nat → Option Nat → RMode
deriving DecidableEq, Repr

/-- Scanner state: mode, bytes buffered since `ESC` (flushed as plain text
if the sequence turns out uninterpretable), current attributes, and styled
output characters. -/
structure RSt where
  mode : RMode
  pend : List Nat
  attrs : Attrs
  out : List (Nat × Attrs)
deriving Repr

/-- One character of the renderer's marker scanner: recognized SGR
sequences update the current attributes; anything else (stray escapes,
unrecognized finals) is flushed as plain text (spec §4.2: any line it
cannot interpret is rendered as plain escaped text). -/
def rstep (s : RSt) (c : Nat) : RSt :=
  match s.mode with
  | .text =>
    if c = 27 then { s with mode := .esc, pend := [27] }
    else { s with out := s.out ++ [(c, s.attrs)] }
  | .esc =>
    if c = 91 then { s with mode := .csi [] none, pend := s.pend ++ [91] }
    else { s with mode := .text, pend := [],
                  out := s.out ++ (s.pend ++ [c]).map (fun x => (x, s.attrs)) }
  | .csi ps cur =>
    if 48 ≤ c ∧ c ≤ 57 then
      { s with mode := .csi ps (some ((cur.getD 0) * 10 + (c - 48))), pend := s.pend ++ [c] }
    else if c = 59 then { s with mode := .csi (ps ++ [cur.getD 0]) none, pend := s.pend ++ [c] }
    else if c = 109 then
      { s with mode := .text, pend := [], attrs := applySgr s.attrs (ps ++ [cur.getD 0]) }
    else { s with mode := .text, pend := [],
                  out := s.out ++ (s.pend ++ [c]).map (fun x => (x, s.attrs)) }

/-- Parse one canonical line into styled characters, returning the
attributes in force at its end (threaded into the next line).  A sequence
left unterminated at end of line is flushed as plain text. -/
def lineRuns (a : Attrs) (l : List Nat) : List (Nat × Attrs) × Attrs :=
  let s := l.foldl rstep ⟨.text, [], a, []⟩
  (s.out ++ s.pend.map (fun x => (x, s.attrs)), s.attrs)

/-- A styled run: contiguous (escaped) text sharing one attribute set. -/
structure Run where
  text : List Nat
  attrs : Attrs
deriving DecidableEq, Repr

/-- Group styled characters into maximal runs of equal attributes. -/
def toRuns : List (Nat × Attrs) → List Run
  | [] => []
  | (c, a) :: rest =>
    match toRuns rest with
    | [] => [⟨[c], a⟩]
    | r :: rs => if r.attrs = a then ⟨c :: r.text, a⟩ :: rs else ⟨[c], a⟩ :: r :: rs

/-- HTML escaping of one code point (spec §4.2: markup-escape all text
content). -/
def escCp (c : Nat) : List Nat :=
  if c = 38 then cp "&amp;"
  else if c = 60 then cp "&lt;"
  else if c = 62 then cp "&gt;"
  else [c]

/-- Runs of a line with their text HTML-escaped. -/
def mkRuns (out : List (Nat × Attrs)) : List Run :=
  (toRuns out).map (fun r => ⟨r.text.flatMap escCp, r.attrs⟩)

/-- One rendered line record: 1-based number, stable anchor, styled runs. -/
structure RLine where
  num : Nat
  anchor : List Nat
  runs : List Run
deriving DecidableEq, Repr

/-- The anchor identifier of line `i`: `L<i>`. -/
def anchorOf (i : Nat) : List Nat := 76 :: natCodes i

/-- Render the canonical lines in order, numbering from `i` and threading
the current attributes. -/
def renderLines (a : Attrs) (i : Nat) : List (List Nat) → List RLine
  | [] => []
  | l :: ls =>
    let pr := lineRuns a l
    ⟨i, anchorOf i, mkRuns pr.1⟩ :: renderLines pr.2 (i + 1) ls

/-- The rendered document: title plus one addressable record per canonical
line. -/
structure Doc where
  title : List Nat
  lines : List RLine
deriving DecidableEq, Repr

/-- Modelled from the spec: `ansi2html.generate_html` (absent from the
source tree): `render(canonical_text) -> document`. -/
def generateHtml (text : List Nat) : Doc :=
  ⟨cp "Terminal Output", renderLines Attrs.default 1 (linesOf text)⟩

/-! ## The transform of `process_single_file`
(`src/claude_logging/__main__.py:36-50`)

The two `try/except` blocks are embedded as `Except` values whose `error`
cases correspond to the `'Error processing with pytermdump'` and
`'Error converting to HTML'` branches; `none` is the `return None` of
either branch. -/

/-- The `try` block at `__main__.py:37-39`: normalize, then decode with
`errors='replace'`. -/
def pytermdumpStage (data : List Nat) : Except String (List Nat) :=
  Except.ok (decodeReplace (termdump data))

/-- The `try` block at `__main__.py:45-47`: convert the decoded text to
HTML. -/
def renderStage (text : List Nat) : Except String Doc :=
  Except.ok (generateHtml text)

/-- The transform steps of `process_single_file` on in-memory data
(`__main__.py:36-50`): each `except` branch yields `none`. -/
def processSingleFileT (data : List Nat) : Option Doc :=
  match pytermdumpStage data with
  | .error _ => none
  | .ok pd =>
    match renderStage pd with
    | .error _ => none
    | .ok doc => some doc

/-- The full pipeline composition. -/
def processTransform (raw : List Nat) : Doc :=
  generateHtml (decodeReplace (termdump raw))

/-! ## CLI layer: I/O boundary of `process_single_file` and the
`dump_command` loop (`__main__.py:20-99`)

The file system is embedded as read and write oracles: `fs p = none`
models an unreadable or nonexistent input file (the `except` branch at
`__main__.py:32-34`), `writable o = false` models an unwritable output
file (the `except` branch at `__main__.py:97-99`). -/

/-- Embedding of `process_single_file` (`__main__.py:20-50`) with its input handling:
`'-'` reads stdin, otherwise the file is read under `try/except`, and both
transform stages follow. -/
def processSingleFileRead (fs : String → Option (List Nat)) (stdin : List Nat)
    (input : String) : Option Doc :=
  match (if input = "-" then some stdin else fs input) with
  | none => none
  | some data => processSingleFileT data

/-! ## `get_default_output_path` (`__main__.py:102-110`)

`Path(input_file).name` and `Path(filename).with_suffix('.html')` are
CPython `pathlib` operations, modelled byte-for-byte from their algorithms:
`name` is the last path component after dropping empty and `'.'` parts;
`with_suffix` raises `ValueError` on an empty name (modelled as `none`),
else drops the old suffix (the part from the last `'.'` when that dot is
neither first nor last in the name) and appends `'.html'`. -/

/-- Split a character list at `'/'` separators (every component, including
empty ones). -/
def splitSlash : List Char → List (List Char)
  | [] => [[]]
  | c :: cs =>
    if c = '/' then [] :: splitSlash cs
    else
      match splitSlash cs with
      | [] => [[c]]
      | l :: ls => (c :: l) :: ls

/-- CPython `PurePosixPath(p).name`: the last path component after
dropping empty and `'.'` parts (empty for paths like `/`, `.` or ``). -/
def pathNameOf (p : String) : List Char :=
  ((splitSlash p.toList).filter (fun s => !(s.isEmpty || s == ['.']))).getLastD []

/-- Length of the run of non-dot characters at the end of the name. -/
def trailingNonDot (cs : List Char) : Nat :=
  (cs.reverse.takeWhile (fun c => c != '.')).length

/-- Length of the CPython `Path.suffix` of `cs` (including its dot):
`i = name.rfind('.')`, suffix is `name[i:]` when `0 < i < len(name)-1`. -/
def pySuffixLen (cs : List Char) : Nat :=
  if '.' ∈ cs then
    let t := trailingNonDot cs
    let i := cs.length - 1 - t
    if 0 < i ∧ i < cs.length - 1 then cs.length - i else 0
  else 0

/-- CPython `Path(name).with_suffix('.html')`: `none` models the
`ValueError` raised on an empty name. -/
def pyWithSuffixHtml (name : List Char) : Option (List Char) :=
  if name = [] then none
  else some (name.take (name.length - pySuffixLen name) ++ ".html".toList)

/-- Embedding of `get_default_output_path` (`__main__.py:102-110`): `'-'` maps to
`'-'`, otherwise the final filename component with suffix replaced by
`.html`; `none` models the uncaught `ValueError` on an empty final
component. -/
def get_default_output_path (p : String) : Option String :=
  if p = "-" then some "-"
  else (pyWithSuffixHtml (pathNameOf p)).map fun l => String.mk l

/-! ## The `dump_command` loop (`__main__.py:53-99`) -/

/-- Per-file outcome of the `dump_command` loop. -/
inductive Outcome where
  | readFail : Outcome
  | toStdout : Outcome
  | wrote : String → Outcome
  | writeFail : String → Outcome
deriving DecidableEq, Repr

/-- The output path used for input `f` (`__main__.py:76-80`): the `-o`
argument when present and truthy, else the default output path. -/
def outPathFor (outOpt : Option String) (f : String) : Option String :=
  match outOpt with
  | some o => if o = "" then get_default_output_path f else some o
  | none => get_default_output_path f

/-- The `for` loop of `dump_command` (`__main__.py:75-99`): each file's
output path is computed, the file is processed, and read or write failures
are reported and skipped with `continue`; an empty-name `ValueError` from
`get_default_output_path` (not caught anywhere) aborts the loop. -/
def dumpLoop (fs : String → Option (List Nat)) (stdin : List Nat)
    (writable : String → Bool) (outOpt : Option String) :
    List String → Except String (List Outcome)
  | [] => .ok []
  | f :: rest =>
    match outPathFor outOpt f with
    | none => .error "ValueError"
    | some out =>
      let oc := match processSingleFileRead fs stdin f with
        | none => Outcome.readFail
        | some _ =>
          if out = "-" then Outcome.toStdout
          else if writable out then Outcome.wrote out else Outcome.writeFail out
      (dumpLoop fs stdin writable outOpt rest).map (oc :: ·)

/-- Embedding of `dump_command` (`__main__.py:53-99`): the two argument guards
(`sys.exit(1)` branches, modelled as `error`), then the loop. -/
def dump_command (fs : String → Option (List Nat)) (stdin : List Nat)
    (writable : String → Bool) (outOpt : Option String) (files : List String) :
    Except String (List Outcome) :=
  if (match outOpt with
      | some o => o != "" && o != "-" && decide (1 < files.length)
      | none => false) then .error "exit:1"
  else if "-" ∈ files ∧ 1 < files.length then .error "exit:1"
  else dumpLoop fs stdin writable outOpt files

/-- The outputs the `dump_command` loop computes for a list of in-memory
inputs, one per file, in order (used for the purity/statelessness claim). -/
def dumpOutputs : List (List Nat) → List (Option Doc)
  | [] => []
  | d :: ds => processSingleFileT d :: dumpOutputs ds

/-! ## Default-mode log file selection in `claude_command`
(`__main__.py:207-216`)

`log_file = os.path.join(log_dir, f'<name>.<date>.<n>.log')` for the
first `n` (from 0) whose path does not exist; `ex` embeds
`os.path.exists`.  The unbounded `while True` is embedded with explicit
fuel; `none` models non-termination (every candidate exists). -/

def natStr (n : Nat) : String := String.mk ((natCodes n).map Char.ofNat)

/-- The candidate path `<log_dir>/<current-directory-name>.<date>.<n>.log`
(`__main__.py:213`). -/
def mkDefaultLogPath (dir name date : String) (n : Nat) : String :=
  dir ++ "/" ++ name ++ "." ++ date ++ "." ++ natStr n ++ ".log"

/-- The `while True` search of `claude_command`'s default mode
(`__main__.py:211-216`). -/
def findLogSlot (ex : String → Bool) (dir name date : String) :
    Nat → Nat → Option String
  | _, 0 => none
  | n, fuel + 1 =>
    let lf := mkDefaultLogPath dir name date n
    if ex lf then findLogSlot ex dir name date (n + 1) fuel else some lf

/-! ## Auxiliary definitions used by the statements and proofs -/

/-- Whether `pat` is an initial segment of `l`. -/
def seqStarts : List Nat → List Nat → Bool
  | [], _ => true
  | _ :: _, [] => false
  | a :: as, b :: bs => a == b && seqStarts as bs

/-- Whether `pat` occurs contiguously inside `l`. -/
def seqContains (pat l : List Nat) : Bool :=
  l.tails.any (seqStarts pat)

/-- The full (escaped) text of a rendered line, its runs concatenated. -/
def lineText (l : RLine) : List Nat := (l.runs.map Run.text).flatten

/-- The sample transcript of the spec scenario (§8) and of
`tests/test_dump_command.py` (`sample_log_file`). -/
def sampleInput : List Nat :=
  cp "\x1b[1mBold text\x1b[0m\nNormal text\n\x1b[31mRed text\x1b[0m\n\x1b[32mGreen text\x1b[0m\n"

def boldAttrs : Attrs := { Attrs.default with bold := true }

def redAttrs : Attrs := { Attrs.default with fg := .std 1 }

def greenAttrs : Attrs := { Attrs.default with fg := .std 2 }

/-- The dummy line used with `List.getD` on rendered lines. -/
def noLine : RLine := ⟨0, [], []⟩

/-- Claim-side formulation of "the final filename component with its
extension replaced by `.html`": the extension is the segment after the
last dot, counted only when it is non-empty and the last dot is not the
first character of the name. -/
def claimedStem (cs : List Char) : List Char :=
  let r := cs.reverse
  if ('.' ∈ cs) ∧ r.takeWhile (fun c => c != '.') ≠ [] ∧
      (r.dropWhile (fun c => c != '.')).tail ≠ [] then
    ((r.dropWhile (fun c => c != '.')).tail).reverse
  else cs

/-- A terminal state that has only ever written plain printable bytes:
one row, cursor at its end, default style, ground parsing state. -/
def plainTerm (cells : List Cell) : Term :=
  ⟨[cells], 0, cells.length, Attrs.default, .ground⟩

/-- Fold step valuing a digit-code list back to the number it denotes. -/
def digitVal (a d : Nat) : Nat := 10 * a + (d - 48)

/-- Invariant of the incremental UTF-8 decoder: while continuation bytes
are pending, the scalar being assembled is guaranteed to end up `≥ 0x80`
(its lead already contributed high bits, or the admissible range of the
next byte forces them). -/
def u8ok (s : U8) : Prop :=
  s.need ≠ 0 →
    0x80 ≤ s.lo ∧ 128 ≤ s.acc * 64 ^ s.need + (s.lo - 0x80) * 64 ^ (s.need - 1)

/-- Invariant: once the decoder has seen an error, a replacement character
is already in its output. -/
def u8badInv (s : U8) : Prop := s.bad = true → replCp ∈ s.out


/-! # Theorems

Supporting lemmas first, then one theorem per claim (naming `claim_Cn`),
with witnesses and counterexamples where required. -/

theorem natCodesGo_val (f : Nat) :
    ∀ n, n < 10 ^ f → (natCodesGo f n).foldl digitVal 0 = n := by
  induction f with
  | zero => intro n h; interval_cases n; rfl
  | succ f ih =>
    intro n h
    rw [natCodesGo]
    by_cases h10 : n < 10
    · simp only [if_pos h10, List.foldl, digitVal]
      omega
    · rw [if_neg h10, List.foldl_append]
      have hdiv : n / 10 < 10 ^ f := by
        rw [Nat.div_lt_iff_lt_mul (by norm_num)]
        calc n < 10 ^ (f + 1) := h
        _ = 10 ^ f * 10 := by rw [pow_succ]
      rw [ih (n / 10) hdiv]
      simp [List.foldl, digitVal]
      omega

theorem natCodes_val (n : Nat) : (natCodes n).foldl digitVal 0 = n :=
  natCodesGo_val (n + 1) n
    (lt_of_lt_of_le (Nat.lt_pow_self (by norm_num) n)
      (Nat.pow_le_pow_right (by norm_num) (Nat.le_succ n)))

theorem natCodes_injective : Function.Injective natCodes := by
  intro a b h
  have := natCodes_val a
  rw [h, natCodes_val b] at this
  exact this.symm

theorem anchorOf_injective : Function.Injective anchorOf := by
  intro a b h
  exact natCodes_injective (by simpa [anchorOf] using h)

theorem renderLines_map_num (ls : List (List Nat)) :
    ∀ (a : Attrs) (i : Nat),
      (renderLines a i ls).map RLine.num = List.range' i ls.length := by
  induction ls with
  | nil => intro a i; rfl
  | cons l ls ih =>
    intro a i
    simp only [renderLines, List.map_cons, List.length_cons, List.range'_succ]
    rw [ih]

theorem renderLines_map_anchor (ls : List (List Nat)) :
    ∀ (a : Attrs) (i : Nat),
      (renderLines a i ls).map RLine.anchor = (List.range' i ls.length).map anchorOf := by
  induction ls with
  | nil => intro a i; rfl
  | cons l ls ih =>
    intro a i
    simp only [renderLines, List.map_cons, List.length_cons, List.range'_succ]
    rw [ih]


/-- C5: for every canonical text of N lines, the rendered document
contains exactly N line elements, numbered 1..N in document order, each
carrying its numeric line-number label and a stable anchor identifier,
and the anchors are pairwise distinct. -/
theorem claim_C5 (text : List Nat) :
    (generateHtml text).lines.length = (linesOf text).length ∧
    (generateHtml text).lines.map RLine.num = List.range' 1 (linesOf text).length ∧
    ((generateHtml text).lines.map RLine.anchor).Nodup := by
  refine ⟨?_, ?_, ?_⟩
  · have := renderLines_map_num (linesOf text) Attrs.default 1
    have h2 := congrArg List.length this
    simpa [generateHtml] using h2
  · simpa [generateHtml] using renderLines_map_num (linesOf text) Attrs.default 1
  · have h := renderLines_map_anchor (linesOf text) Attrs.default 1
    simp only [generateHtml]
    rw [h]
    exact (List.nodup_range' _ _).map anchorOf_injective


theorem u8lead_out (s : U8) (b : Nat) :
    ∀ c ∈ (u8lead s b).out, c ∈ s.out ∨ c = b ∨ c = replCp := by
  unfold u8lead
  split_ifs <;> intro c hc <;> simp_all <;> tauto

theorem u8lead_ok (s : U8) (b : Nat) (h : s.need = 0) : u8ok (u8lead s b) := by
  unfold u8lead
  split_ifs with h1 h2 h3 h4 h5 h6 h7 h8 h9 <;> intro hne <;>
    first
    | exact absurd h (by simpa using hne)
    | (refine ⟨by norm_num, ?_⟩
       simp only
       norm_num
       try omega)

theorem u8lead_badInv (s : U8) (b : Nat) (h : u8badInv s) : u8badInv (u8lead s b) := by
  unfold u8lead u8badInv at *
  split_ifs <;> intro hb <;> simp_all

theorem u8step_ok (s : U8) (b : Nat) (h : u8ok s) : u8ok (u8step s b) := by
  unfold u8step
  split_ifs with h0 hrange h1
  · exact u8lead_ok s b h0
  · intro hne; simp at hne
  · intro hne
    simp only [ne_eq] at hne
    obtain ⟨hlo, hval⟩ := h h0
    obtain ⟨k, hk⟩ : ∃ k, s.need = k + 2 := ⟨s.need - 2, by omega⟩
    refine ⟨by norm_num, ?_⟩
    simp only
    have hexp1 : s.need - 1 = k + 1 := by omega
    rw [hexp1] at hne ⊢
    have hexp2 : k + 1 - 1 = k := by omega
    rw [hexp2]
    simp only [Nat.sub_self, Nat.zero_mul, Nat.add_zero]
    rw [hk] at hval
    have hexp3 : k + 2 - 1 = k + 1 := by omega
    rw [hexp3] at hval
    have key : s.acc * 64 ^ (k + 2) + (s.lo - 0x80) * 64 ^ (k + 1)
        ≤ (s.acc * 64 + (b - 0x80)) * 64 ^ (k + 1) := by
      have e1 : (64:Nat) ^ (k + 2) = 64 ^ (k + 1) * 64 := pow_succ 64 (k + 1)
      rw [e1]
      calc s.acc * (64 ^ (k + 1) * 64) + (s.lo - 0x80) * 64 ^ (k + 1)
          = (s.acc * 64 + (s.lo - 0x80)) * 64 ^ (k + 1) := by ring
        _ ≤ (s.acc * 64 + (b - 0x80)) * 64 ^ (k + 1) := by
            apply Nat.mul_le_mul_right
            have := hrange.1
            omega
    exact le_trans hval key
  · exact u8lead_ok _ b rfl



theorem u8step_out (s : U8) (b : Nat) (h : u8ok s) :
    ∀ c ∈ (u8step s b).out, c ∈ s.out ∨ c = b ∨ c = replCp ∨ 128 ≤ c := by
  unfold u8step
  split_ifs with h0 hrange h1
  · intro c hc
    rcases u8lead_out s b c hc with h' | h' | h' <;> tauto
  · intro c hc
    simp only [List.mem_append, List.mem_singleton] at hc
    rcases hc with hc | hc
    · tauto
    · right; right; right
      obtain ⟨hlo, hval⟩ := h h0
      rw [h1] at hval
      norm_num at hval
      have := hrange.1
      omega
  · intro c hc
    left; exact hc
  · intro c hc
    have step : ∀ x ∈ ({ s with need := 0, out := s.out ++ [replCp], bad := true } : U8).out,
        x ∈ s.out ∨ x = replCp := by
      intro x hx
      simp only [List.mem_append, List.mem_singleton] at hx
      tauto
    rcases u8lead_out _ b c hc with h' | h' | h'
    · rcases step c h' with h'' | h'' <;> tauto
    · tauto
    · tauto

theorem u8step_badInv (s : U8) (b : Nat) (h : u8badInv s) : u8badInv (u8step s b) := by
  unfold u8step
  split_ifs with h0 hrange h1
  · exact u8lead_badInv s b h
  · intro hb
    simp only at hb
    simp only [List.mem_append]
    exact Or.inl (h hb)
  · intro hb
    simp only at hb
    exact h hb
  · apply u8lead_badInv
    intro _
    simp only [List.mem_append, List.mem_singleton]
    tauto

theorem foldl_u8 (l : List Nat) :
    ∀ s : U8, u8ok s → u8badInv s →
      u8ok (l.foldl u8step s) ∧ u8badInv (l.foldl u8step s) ∧
      ∀ c ∈ (l.foldl u8step s).out, c ∈ s.out ∨ c ∈ l ∨ c = replCp ∨ 128 ≤ c := by
  induction l with
  | nil =>
    intro s hok hbad
    exact ⟨hok, hbad, fun c hc => Or.inl hc⟩
  | cons b bs ih =>
    intro s hok hbad
    simp only [List.foldl_cons]
    obtain ⟨ih1, ih2, ih3⟩ := ih (u8step s b) (u8step_ok s b hok) (u8step_badInv s b hbad)
    refine ⟨ih1, ih2, ?_⟩
    intro c hc
    rcases ih3 c hc with h' | h' | h' | h'
    · rcases u8step_out s b hok c h' with h'' | h'' | h'' | h''
      · tauto
      · right; left; simp [h'']
      · tauto
      · tauto
    · right; left; simp [h']
    · tauto
    · tauto

theorem decodeReplace_mem (l : List Nat) :
    ∀ c ∈ decodeReplace l, c ∈ l ∨ c = replCp ∨ 128 ≤ c := by
  intro c hc
  unfold decodeReplace at hc
  simp only [List.mem_append] at hc
  rcases hc with hc | hc
  · have h := (foldl_u8 l u8init (by intro h; simp [u8init] at h) (by intro h; simp [u8init] at h)).2.2
    rcases h c hc with h' | h' | h' | h'
    · simp [u8init] at h'
    · tauto
    · tauto
    · tauto
  · split at hc
    · simp at hc
    · simp at hc
      tauto

theorem decodeStrict_none_repl (l : List Nat) (h : decodeStrict l = none) :
    replCp ∈ decodeReplace l := by
  unfold decodeStrict at h
  unfold decodeReplace
  by_cases hbad : (l.foldl u8step u8init).bad = true
  · have hmem := (foldl_u8 l u8init (by intro h'; simp [u8init] at h')
      (by intro h'; simp [u8init] at h')).2.1 hbad
    exact List.mem_append_left _ hmem
  · by_cases hneed : (l.foldl u8step u8init).need = 0
    · exfalso
      simp only [hneed] at h
      simp [Bool.not_eq_true] at hbad
      simp [hbad] at h
    · apply List.mem_append_right
      simp [hneed]



set_option maxRecDepth 10000

/-- C1: for every input byte sequence, including malformed ones, the
normalizer stage of `process_single_file` returns a result and the
`'Error processing with pytermdump'` branch is unreachable: the transform
always produces the rendered document.  The concrete conjuncts evaluate
the pipeline on a transcript ending mid-escape-sequence and on one with
a stray control byte and an invalid UTF-8 byte. -/
theorem claim_C1 :
    (∀ raw : List Nat, processSingleFileT raw = some (processTransform raw)) ∧
    processSingleFileT (cp "ok\n\x1b[3") =
      some ⟨cp "Terminal Output", [⟨1, anchorOf 1, [⟨cp "ok", Attrs.default⟩]⟩]⟩ ∧
    processSingleFileT [255, 0, 27] =
      some ⟨cp "Terminal Output", [⟨1, anchorOf 1, [⟨[replCp], Attrs.default⟩]⟩]⟩ :=
  ⟨fun _ => rfl, by decide, by decide⟩

/-- C3: for every canonical text the renderer stage returns a document and
the `'Error converting to HTML'` branch is unreachable; a line it cannot
interpret (here a stray two-byte escape and an unrecognized
control-sequence final) is rendered as plain text with default styling. -/
theorem claim_C3 :
    (∀ text : List Nat, renderStage text = Except.ok (generateHtml text)) ∧
    (generateHtml (cp "\x1bQoops")).lines =
      [⟨1, anchorOf 1, [⟨cp "\x1bQoops", Attrs.default⟩]⟩] ∧
    (generateHtml (cp "\x1b[9Zab")).lines =
      [⟨1, anchorOf 1, [⟨cp "\x1b[9Zab", Attrs.default⟩]⟩] :=
  ⟨fun _ => rfl, by decide, by decide⟩

/-- C4: the pipeline never fails on invalid UTF-8: the transform is total,
and whenever the strict decoder rejects a byte sequence, the replacing
decoder used at `__main__.py:39` substitutes the placeholder U+FFFD and
continues. -/
theorem claim_C4 :
    (∀ raw : List Nat, (processSingleFileT raw).isSome = true) ∧
    (∀ bs : List Nat, decodeStrict bs = none → replCp ∈ decodeReplace bs) :=
  ⟨fun _ => rfl, fun bs h => decodeStrict_none_repl bs h⟩

/-- C4 witness: the invalid byte `0xFF` is rejected by the strict decoder
and replaced by U+FFFD by the pipeline's decoder. -/
theorem claim_C4_witness :
    decodeStrict [255] = none ∧ replCp ∈ decodeReplace [255] :=
  ⟨by decide, claim_C4.2 [255] (by decide)⟩

/-- C7: the transform stages are pure and stateless across invocations:
the output the `dump_command` loop computes for a file depends only on
that file's bytes, not on its position or on the other files processed
before or after it, and equal inputs give equal outputs. -/
theorem claim_C7 :
    (∀ (pre post : List (List Nat)) (x : List Nat),
      dumpOutputs (pre ++ x :: post) =
        dumpOutputs pre ++ processSingleFileT x :: dumpOutputs post) ∧
    (∀ x y : List Nat, x = y → processSingleFileT x = processSingleFileT y) := by
  constructor
  · intro pre post x
    induction pre with
    | nil => rfl
    | cons a as ih => simp only [List.cons_append, dumpOutputs, List.append_eq, ih]
  · intro x y h
    rw [h]

/-- C7 witness at concrete inputs. -/
theorem claim_C7_witness :
    dumpOutputs ([[72]] ++ [73] :: [[74]]) =
      dumpOutputs [[72]] ++ processSingleFileT [73] :: dumpOutputs [[74]] ∧
    processSingleFileT [65] = processSingleFileT [65] :=
  ⟨claim_C7.1 [[72]] [[74]] [73], claim_C7.2 [65] [65] rfl⟩

theorem findLogSlot_spec (ex : String → Bool) (dir name date : String) :
    ∀ (fuel start : Nat) (lf : String),
      findLogSlot ex dir name date start fuel = some lf →
      ∃ n, start ≤ n ∧ lf = mkDefaultLogPath dir name date n ∧ ex lf = false ∧
        ∀ m, start ≤ m → m < n → ex (mkDefaultLogPath dir name date m) = true := by
  intro fuel
  induction fuel with
  | zero => intro start lf h; simp [findLogSlot] at h
  | succ fuel ih =>
    intro start lf h
    rw [findLogSlot] at h
    by_cases hex : ex (mkDefaultLogPath dir name date start) = true
    · rw [if_pos hex] at h
      obtain ⟨n, hn1, hn2, hn3, hn4⟩ := ih (start + 1) lf h
      refine ⟨n, by omega, hn2, hn3, ?_⟩
      intro m hm1 hm2
      by_cases hm : m = start
      · rw [hm]; exact hex
      · exact hn4 m (by omega) hm2
    · rw [if_neg hex] at h
      simp only [Option.some.injEq] at h
      refine ⟨start, le_refl _, h.symm, by rw [← h]; simpa using hex, ?_⟩
      intro m hm1 hm2
      omega

/-- C10: in default mode, `claude_command` selects
`<log_dir>/<dir-name>.<date>.<n>.log` for the smallest `n ≥ 0` whose path
does not exist, so the selected path never names an existing file at
selection time. -/
theorem claim_C10 (ex : String → Bool) (dir name date : String) (fuel : Nat)
    (lf : String) (h : findLogSlot ex dir name date 0 fuel = some lf) :
    ∃ n, lf = mkDefaultLogPath dir name date n ∧ ex lf = false ∧
      ∀ m < n, ex (mkDefaultLogPath dir name date m) = true := by
  obtain ⟨n, _, hn2, hn3, hn4⟩ := findLogSlot_spec ex dir name date fuel 0 lf h
  exact ⟨n, hn2, hn3, fun m hm => hn4 m (Nat.zero_le m) hm⟩

/-- C10 witness: with only the `n = 0` candidate existing, the search
selects `n = 1`, which does not exist, and `n = 0` existed. -/
theorem claim_C10_witness :
    ∃ n, "logs/repo.2025-10-12.1.log" = mkDefaultLogPath "logs" "repo" "2025-10-12" n ∧
      (fun p => p == "logs/repo.2025-10-12.0.log") "logs/repo.2025-10-12.1.log" = false ∧
      ∀ m < n, (fun p => p == "logs/repo.2025-10-12.0.log")
          (mkDefaultLogPath "logs" "repo" "2025-10-12" m) = true :=
  claim_C10 (fun p => p == "logs/repo.2025-10-12.0.log") "logs" "repo" "2025-10-12" 2
    "logs/repo.2025-10-12.1.log" (by decide)



set_option maxRecDepth 100000 in
/-- C2: on the sample transcript
`ESC[1mBold text ESC[0m \n Normal text \n ESC[31mRed text ESC[0m \n
ESC[32mGreen text ESC[0m \n`, normalization produces exactly 4 canonical
lines, and the rendered document has 4 line elements in that order:
line 1 carries "Bold text" in a bold run, line 2 is unstyled and carries
"Normal text", line 3 carries "Red text" in a red-foreground (`std 1`)
run, line 4 carries "Green text" in a green-foreground (`std 2`) run
(lines 2–4 begin with default-styled blank padding because a line feed
leaves the column unchanged, spec §4.1). -/
theorem claim_C2 :
    (linesOf (decodeReplace (termdump sampleInput))).length = 4 ∧
    (processTransform sampleInput).lines =
      [⟨1, anchorOf 1, [⟨cp "Bold text", boldAttrs⟩]⟩,
       ⟨2, anchorOf 2, [⟨List.replicate 9 32 ++ cp "Normal text", Attrs.default⟩]⟩,
       ⟨3, anchorOf 3, [⟨List.replicate 20 32, Attrs.default⟩, ⟨cp "Red text", redAttrs⟩]⟩,
       ⟨4, anchorOf 4, [⟨List.replicate 28 32, Attrs.default⟩, ⟨cp "Green text", greenAttrs⟩]⟩] ∧
    (((processTransform sampleInput).lines.getD 0 noLine).runs.any
      (fun r => r.attrs.bold && seqContains (cp "Bold text") r.text)) = true ∧
    ((((processTransform sampleInput).lines.getD 1 noLine).runs.all
      (fun r => r.attrs == Attrs.default)) &&
      seqContains (cp "Normal text") (lineText ((processTransform sampleInput).lines.getD 1 noLine))) = true ∧
    (((processTransform sampleInput).lines.getD 2 noLine).runs.any
      (fun r => r.attrs.fg == Color.std 1 && seqContains (cp "Red text") r.text)) = true ∧
    (((processTransform sampleInput).lines.getD 3 noLine).runs.any
      (fun r => r.attrs.fg == Color.std 2 && seqContains (cp "Green text") r.text)) = true := by
  refine ⟨by decide, by decide, by decide, by decide, by decide, by decide⟩



theorem step_plain (cells : List Cell) (b : Nat) (h32 : 32 ≤ b) (h127 : b ≠ 127) :
    step (plainTerm cells) b = plainTerm (cells ++ [⟨b, Attrs.default⟩]) := by
  have h27 : ¬b = 27 := by omega
  have h13 : ¬b = 13 := by omega
  have h10 : ¬b = 10 := by omega
  have h8 : ¬b = 8 := by omega
  have hc : ¬(b < 32 ∨ b = 127) := by omega
  simp only [step, plainTerm, stepGround, writeByte, padRows, setAt, if_neg h27, if_neg h13,
    if_neg h10, if_neg h8, if_neg hc]
  simp [List.set]

theorem foldl_step_plain (bs : List Nat) :
    ∀ cells : List Cell, (∀ b ∈ bs, 32 ≤ b ∧ b ≠ 127) →
      bs.foldl step (plainTerm cells) =
        plainTerm (cells ++ bs.map (fun b => ⟨b, Attrs.default⟩)) := by
  induction bs with
  | nil => intro cells _; simp [plainTerm]
  | cons b bs ih =>
    intro cells h
    have hb := h b (List.mem_cons_self b bs)
    rw [List.foldl_cons, step_plain cells b hb.1 hb.2,
      ih (cells ++ [Cell.mk b Attrs.default]) (fun x hx => h x (List.mem_cons_of_mem b hx))]
    simp

theorem runTerm_plain (bs : List Nat) (h : ∀ b ∈ bs, 32 ≤ b ∧ b ≠ 127) :
    runTerm bs = plainTerm (bs.map (fun b => ⟨b, Attrs.default⟩)) := by
  have : initTerm = plainTerm [] := rfl
  rw [runTerm, this, foldl_step_plain bs [] h]
  simp

theorem emitRow_fold_default (bs : List Nat) :
    ∀ acc : List Nat,
      (bs.map (fun b => (⟨b, Attrs.default⟩ : Cell))).foldl
        (fun ac cell =>
          if cell.a = ac.2 then (ac.1 ++ [cell.b], ac.2)
          else (ac.1 ++ sgrBytesOf cell.a ++ [cell.b], cell.a))
        (acc, Attrs.default) = (acc ++ bs, Attrs.default) := by
  induction bs with
  | nil => intro acc; simp
  | cons b bs ih =>
    intro acc
    simp only [List.map_cons, List.foldl_cons, if_true]
    rw [ih (acc ++ [b])]
    simp

theorem termdump_plain (bs : List Nat) (h : ∀ b ∈ bs, 32 ≤ b ∧ b ≠ 127) :
    termdump bs = bs := by
  rw [termdump, runTerm_plain bs h]
  show emitRowsFrom Attrs.default [bs.map (fun b => ⟨b, Attrs.default⟩)] = bs
  rw [emitRowsFrom]
  show (emitRow Attrs.default (bs.map (fun b => ⟨b, Attrs.default⟩))).1 = bs
  rw [emitRow, emitRow_fold_default bs []]
  simp



theorem rstep_plain_foldl (l : List Nat) :
    ∀ (a : Attrs) (out : List (Nat × Attrs)), (27:Nat) ∉ l →
      l.foldl rstep ⟨.text, [], a, out⟩ =
        ⟨.text, [], a, out ++ l.map (fun c => (c, a))⟩ := by
  induction l with
  | nil => intro a out _; simp
  | cons c cs ih =>
    intro a out h
    have hc : ¬c = 27 := fun hc => h (hc ▸ List.mem_cons_self c cs)
    simp only [List.foldl_cons, rstep, if_neg hc]
    rw [ih a (out ++ [(c, a)]) (fun hm => h (List.mem_cons_of_mem c hm))]
    simp

theorem lineRuns_plain (a : Attrs) (l : List Nat) (h : (27:Nat) ∉ l) :
    lineRuns a l = (l.map (fun c => (c, a)), a) := by
  rw [lineRuns, rstep_plain_foldl l a [] h]
  simp

theorem toRuns_attrs (ps : List (Nat × Attrs)) :
    ∀ (a : Attrs), (∀ p ∈ ps, p.2 = a) → ∀ r ∈ toRuns ps, r.attrs = a := by
  induction ps with
  | nil => intro a _ r hr; simp [toRuns] at hr
  | cons p ps ih =>
    intro a h r hr
    obtain ⟨c, a'⟩ := p
    have ha' : a' = a := h (c, a') (List.mem_cons_self _ _)
    rw [toRuns] at hr
    rcases hrest : toRuns ps with _ | ⟨r', rs⟩
    · rw [hrest] at hr
      simp at hr
      rw [hr]
      exact ha'
    · rw [hrest] at hr
      dsimp only at hr
      by_cases heq : r'.attrs = a'
      · rw [if_pos heq] at hr
        rcases List.mem_cons.mp hr with h' | h'
        · rw [h']; exact ha'
        · exact ih a (fun q hq => h q (List.mem_cons_of_mem _ hq)) r (hrest ▸ List.mem_cons_of_mem r' h')
      · rw [if_neg heq] at hr
        rcases List.mem_cons.mp hr with h' | h'
        · rw [h']; exact ha'
        · exact ih a (fun q hq => h q (List.mem_cons_of_mem _ hq)) r (hrest ▸ h')

theorem mkRuns_attrs (ps : List (Nat × Attrs)) (a : Attrs)
    (h : ∀ p ∈ ps, p.2 = a) : ∀ r ∈ mkRuns ps, r.attrs = a := by
  intro r hr
  rw [mkRuns] at hr
  obtain ⟨r', hr', hmap⟩ := List.mem_map.mp hr
  rw [← hmap]
  exact toRuns_attrs ps a h r' hr'

theorem renderLines_plain (ls : List (List Nat)) :
    ∀ i : Nat, (∀ l ∈ ls, (27:Nat) ∉ l) →
      ∀ rl ∈ renderLines Attrs.default i ls, ∀ r ∈ rl.runs, r.attrs = Attrs.default := by
  induction ls with
  | nil => intro i _ rl hrl; simp [renderLines] at hrl
  | cons l ls ih =>
    intro i h rl hrl
    have hl : (27:Nat) ∉ l := h l (List.mem_cons_self l ls)
    rw [renderLines] at hrl
    rw [lineRuns_plain Attrs.default l hl] at hrl
    rcases List.mem_cons.mp hrl with h' | h'
    · intro r hr
      rw [h'] at hr
      simp only at hr
      apply mkRuns_attrs _ Attrs.default _ r hr
      intro p hp
      obtain ⟨c, hc, hcp⟩ := List.mem_map.mp hp
      rw [← hcp]
    · exact ih (i + 1) (fun x hx => h x (List.mem_cons_of_mem l hx)) rl h'

theorem splitNl_mem (cs : List Nat) :
    ∀ l ∈ splitNl cs, ∀ x ∈ l, x ∈ cs := by
  induction cs with
  | nil => intro l hl x hx; simp [splitNl] at hl; rw [hl] at hx; simp at hx
  | cons c cs ih =>
    intro l hl x hx
    rw [splitNl] at hl
    by_cases hc : c = 10
    · rw [if_pos hc] at hl
      rcases List.mem_cons.mp hl with h' | h'
      · rw [h'] at hx; simp at hx
      · exact List.mem_cons_of_mem c (ih l h' x hx)
    · rw [if_neg hc] at hl
      rcases hrest : splitNl cs with _ | ⟨l', ls⟩
      · rw [hrest] at hl
        simp at hl
        rw [hl] at hx
        simp at hx
        rw [hx]
        exact List.mem_cons_self c cs
      · rw [hrest] at hl
        rcases List.mem_cons.mp hl with h' | h'
        · rw [h'] at hx
          rcases List.mem_cons.mp hx with h'' | h''
          · rw [h'']; exact List.mem_cons_self c cs
          · exact List.mem_cons_of_mem c (ih l' (hrest ▸ List.mem_cons_self l' ls) x h'')
        · exact List.mem_cons_of_mem c (ih l (hrest ▸ List.mem_cons_of_mem l' h') x hx)

theorem linesOf_mem (cs : List Nat) (l : List Nat) (hl : l ∈ linesOf cs) :
    ∀ x ∈ l, x ∈ cs := by
  rw [linesOf] at hl
  split at hl
  · exact splitNl_mem cs l (List.dropLast_subset _ hl)
  · exact splitNl_mem cs l hl



/-- C6: a transcript containing no control or escape bytes (every byte
printable: `32 ≤ b`, `b ≠ 127`) normalizes to byte-identical text — here
exactly identical, which implies identity modulo line-ending
normalization — and its rendering applies no style attributes to any
run. -/
theorem claim_C6 (bs : List Nat) (h : ∀ b ∈ bs, 32 ≤ b ∧ b ≠ 127) :
    termdump bs = bs ∧
    ∀ rl ∈ (generateHtml (decodeReplace (termdump bs))).lines,
      ∀ r ∈ rl.runs, r.attrs = Attrs.default := by
  have hid := termdump_plain bs h
  refine ⟨hid, ?_⟩
  rw [hid]
  have h27 : (27:Nat) ∉ bs := fun hm => by have := h 27 hm; omega
  have hdec : (27:Nat) ∉ decodeReplace bs := by
    intro hm
    rcases decodeReplace_mem bs 27 hm with h' | h' | h'
    · exact h27 h'
    · simp [replCp] at h'
    · omega
  intro rl hrl r hr
  apply renderLines_plain (linesOf (decodeReplace bs)) 1 ?_ rl ?_ r hr
  · intro l hl hm
    exact hdec (linesOf_mem _ l hl 27 hm)
  · simpa [generateHtml] using hrl

/-- C6 witness: the plain transcript `hello world` round-trips
byte-identically and renders unstyled. -/
theorem claim_C6_witness :
    termdump (cp "hello world") = cp "hello world" ∧
    ∀ rl ∈ (generateHtml (decodeReplace (termdump (cp "hello world")))).lines,
      ∀ r ∈ rl.runs, r.attrs = Attrs.default :=
  claim_C6 (cp "hello world") (by decide)



/-- C8: I/O failures are handled by the CLI layer, not the transform: for
every unreadable or nonexistent input path (`fs p = none`),
`process_single_file` returns `None` rather than raising; and whenever
every file's output path is well defined, the `dump_command` loop never
aborts — unwritable outputs are reported per file and the loop continues,
producing one outcome per input file. -/
theorem claim_C8 :
    (∀ (fs : String → Option (List Nat)) (stdin : List Nat) (p : String),
      p ≠ "-" → fs p = none → processSingleFileRead fs stdin p = none) ∧
    (∀ (fs : String → Option (List Nat)) (stdin : List Nat) (writable : String → Bool)
        (outOpt : Option String) (files : List String),
      (∀ f ∈ files, (outPathFor outOpt f).isSome = true) →
      ∃ ocs, dumpLoop fs stdin writable outOpt files = .ok ocs ∧
        ocs.length = files.length) := by
  constructor
  · intro fs stdin p hp hfs
    simp [processSingleFileRead, hp, hfs]
  · intro fs stdin writable outOpt files
    induction files with
    | nil => intro _; exact ⟨[], rfl, rfl⟩
    | cons f rest ih =>
      intro h
      obtain ⟨out, hout⟩ := Option.isSome_iff_exists.mp (h f (List.mem_cons_self f rest))
      obtain ⟨ocs, hocs, hlen⟩ := ih (fun x hx => h x (List.mem_cons_of_mem f hx))
      rw [dumpLoop, hout]
      dsimp only
      rw [hocs]
      dsimp only [Except.map]
      exact ⟨_, rfl, by simp [hlen]⟩

/-- C8 witness: a nonexistent input yields `None`; a two-file batch with
every output unwritable still completes with one outcome per file. -/
theorem claim_C8_witness :
    processSingleFileRead (fun _ => none) [] "missing.log" = none ∧
    ∃ ocs, dumpLoop (fun _ => none) [] (fun _ => false) none ["a.log", "b.log"] = .ok ocs ∧
      ocs.length = (["a.log", "b.log"] : List String).length :=
  ⟨claim_C8.1 (fun _ => none) [] "missing.log" (by decide) rfl,
   claim_C8.2 (fun _ => none) [] (fun _ => false) none ["a.log", "b.log"] (by decide)⟩



theorem dropWhile_eq_drop_len {α : Type} (p : α → Bool) :
    ∀ l : List α, l.dropWhile p = l.drop (l.takeWhile p).length := by
  intro l
  induction l with
  | nil => rfl
  | cons a l ih =>
    by_cases h : p a
    · simp [List.dropWhile_cons, List.takeWhile_cons, h, ih]
    · simp [List.dropWhile_cons, List.takeWhile_cons, h]

theorem stem_eq (cs : List Char) :
    cs.take (cs.length - pySuffixLen cs) = claimedStem cs := by
  rw [pySuffixLen, claimedStem]
  by_cases hdot : '.' ∈ cs
  · simp only [if_pos hdot]
    have hdr : '.' ∈ cs.reverse := List.mem_reverse.mpr hdot
    have hne : cs.reverse.dropWhile (fun c => c != '.') ≠ [] := by
      intro hnil
      have := (List.dropWhile_eq_nil_iff).mp hnil '.' hdr
      simp at this
    have hdw : cs.reverse.dropWhile (fun c => c != '.') =
        cs.reverse.drop (trailingNonDot cs) := by
      rw [dropWhile_eq_drop_len]
      rfl
    have htail : (cs.reverse.dropWhile (fun c => c != '.')).tail =
        cs.reverse.drop (trailingNonDot cs + 1) := by
      rw [hdw, List.tail_drop]
    have hlt : trailingNonDot cs < cs.length := by
      by_contra hge
      apply hne
      rw [hdw]
      rw [List.drop_eq_nil_iff]
      simp only [List.length_reverse]
      omega
    have hext : (cs.reverse.takeWhile (fun c => c != '.') ≠ []) ↔ trailingNonDot cs ≠ 0 := by
      rw [ne_eq, ← List.length_eq_zero]
      exact not_congr (by rfl)
    have htail_ne : ((cs.reverse.dropWhile (fun c => c != '.')).tail ≠ []) ↔
        trailingNonDot cs + 1 < cs.length := by
      rw [htail, ne_eq, List.drop_eq_nil_iff]
      simp only [List.length_reverse]
      omega
    split_ifs with hc hd hd
    · -- both conditions hold
      have hrev : (cs.reverse.drop (trailingNonDot cs + 1)).reverse =
          cs.take (cs.length - (trailingNonDot cs + 1)) := by
        rw [← List.rdrop_eq_reverse_drop_reverse, List.rdrop]
      rw [htail, hrev]
      congr 1
      omega
    · exfalso
      apply hd
      refine ⟨hdot, hext.mpr (by omega), htail_ne.mpr (by omega)⟩
    · exfalso
      obtain ⟨-, h2, h3⟩ := hd
      have := hext.mp h2
      have := htail_ne.mp h3
      omega
    · simp
  · simp only [if_neg hdot]
    rw [if_neg (fun hc => hdot hc.1)]
    simp



/-- C9 counterexample: the claim promises a returned value for every
input path other than `'-'`, but at the path `'.'` (whose final filename
component is empty) `get_default_output_path` raises `ValueError` in
`Path.with_suffix` and returns nothing. -/
theorem claim_C9_counterexample :
    ("." : String) ≠ "-" ∧ get_default_output_path "." = none :=
  ⟨by decide, by decide⟩

/-- C9 (amended): `get_default_output_path '-'` is `'-'`; for every other
input path whose final filename component is nonempty, the result is that
component (directories stripped) with its extension replaced by `.html`;
paths with an empty final component (such as `.`, `..` resolving to
nothing, `/`, or the empty string) instead raise `ValueError`. -/
theorem claim_C9 :
    get_default_output_path "-" = some "-" ∧
    ∀ p : String, p ≠ "-" → pathNameOf p ≠ [] →
      get_default_output_path p =
        some (String.mk (claimedStem (pathNameOf p) ++ ".html".toList)) := by
  refine ⟨rfl, ?_⟩
  intro p hp hname
  rw [get_default_output_path, if_neg hp, pyWithSuffixHtml, if_neg hname]
  simp only [Option.map_some']
  congr 1
  rw [stem_eq]

/-- C9 witness: concrete evaluations, matching the repository's tests. -/
theorem claim_C9_witness :
    get_default_output_path "-" = some "-" ∧
    get_default_output_path "/path/to/file.log" =
      some (String.mk (claimedStem (pathNameOf "/path/to/file.log") ++ ".html".toList)) :=
  ⟨claim_C9.1, claim_C9.2 "/path/to/file.log" (by decide) (by decide)⟩


end ClaudeLogging
